import Mathlib

/-!
Verification of the OCR post-processing core (`src/core/correctors.py`,
`src/core/validators.py`, `src/services/quality_check.py`,
`src/services/feedback_collector.py`, `src/services/active_learning.py`)
against its natural-language specification.

Modelling conventions:
* Python `str` is modelled as `List Char` (wrapped back into `String` at the
  interfaces); machine floats are modelled as exact rationals `ℚ`.
* Python `dict` objects are modelled as insertion-ordered association lists
  (`List (K × V)`), with lookup returning the value of the first (unique) key
  and update-in-place / append-if-absent semantics, mirroring CPython dicts.
* The Unicode character classes consulted by the code (`str.islower`,
  `str.isupper`, `str.isalpha`, `str.isdigit`, `re` class `\w`, `\s`) are
  modelled on the character repertoire the program works over: ASCII plus the
  Cyrillic block U+0400–U+04FF (the code itself defines "russian char" as
  exactly that block).
* File-system effects are modelled by explicit state values; logging is not
  modelled (it does not influence any computed value).
-/

namespace OcrService

/-! ## Character classes (Python `str` predicates and `re` classes) -/

/-- Model of `AutoCorrectionSystem.is_russian_char`: the source tests
`'Ѐ' <= char <= 'ӿ'`. -/
def is_russian_char (c : Char) : Bool :=
  decide (0x400 ≤ c.toNat ∧ c.toNat ≤ 0x4FF)

/-- Uppercase basic-Cyrillic letters (А-Я, Ё, and Ѐ-Џ). -/
def isRuUpper (c : Char) : Bool :=
  decide ((0x410 ≤ c.toNat ∧ c.toNat ≤ 0x42F) ∨ c.toNat = 0x401 ∨
    (0x400 ≤ c.toNat ∧ c.toNat ≤ 0x40F))

/-- Lowercase basic-Cyrillic letters (а-я, ё, and ѐ-џ). -/
def isRuLower (c : Char) : Bool :=
  decide ((0x430 ≤ c.toNat ∧ c.toNat ≤ 0x44F) ∨ c.toNat = 0x451 ∨
    (0x450 ≤ c.toNat ∧ c.toNat ≤ 0x45F))

/-- Model of Python `str.isalpha` on the modelled repertoire. -/
def pyIsAlpha (c : Char) : Bool :=
  c.isAlpha || isRuUpper c || isRuLower c

/-- Model of Python `str.isupper` for a single character. -/
def pyIsUpper (c : Char) : Bool :=
  decide ('A' ≤ c ∧ c ≤ 'Z') || isRuUpper c

/-- Model of Python `str.islower` for a single character. -/
def pyIsLower (c : Char) : Bool :=
  decide ('a' ≤ c ∧ c ≤ 'z') || isRuLower c

/-- Model of Python `str.isdigit` on the modelled repertoire (ASCII digits). -/
def pyIsDigit (c : Char) : Bool := c.isDigit

/-- Model of Python `str.isalnum` for a single character. -/
def pyIsAlnum (c : Char) : Bool := pyIsAlpha c || pyIsDigit c

/-- Model of the `re` class `\w` (alphanumeric or underscore) on the modelled
repertoire. -/
def pyIsWordChar (c : Char) : Bool := pyIsAlnum c || c = '_'

/-- Model of the `re` class `\s` / `str.strip` whitespace. -/
def pyIsSpace (c : Char) : Bool :=
  c = ' ' || c = '\t' || c = '\n' || c = '\r' ||
    decide (c.toNat = 0xB) || decide (c.toNat = 0xC)

/-- Model of Python `str.isdigit` for a whole string: nonempty and all digits. -/
def pyStrIsDigit (w : List Char) : Bool := !w.isEmpty && w.all pyIsDigit

/-- Model of Python `str.isalnum` for a whole string. -/
def pyStrIsAlnum (w : List Char) : Bool := !w.isEmpty && w.all pyIsAlnum

/-- Model of Python `str.lower` for a single character on the modelled
repertoire: ASCII A-Z and Cyrillic А-Я map by +32, Ѐ-Џ by +80, Ё to ё. -/
def pyToLower (c : Char) : Char :=
  if decide ('A' ≤ c ∧ c ≤ 'Z') then Char.ofNat (c.toNat + 32)
  else if decide (0x410 ≤ c.toNat ∧ c.toNat ≤ 0x42F) then Char.ofNat (c.toNat + 32)
  else if decide (0x400 ≤ c.toNat ∧ c.toNat ≤ 0x40F) then Char.ofNat (c.toNat + 80)
  else c

/-! ## Generic list and string helpers -/

/-- Splits a character list into the maximal runs of characters agreeing on
the predicate `p`, in order, each run tagged with its `p`-value.  This is how
the regex alternation `\b\w+\b|\W+` (and, restricted to all-`p` runs, a
class-plus pattern between `\b` anchors) decomposes a string. -/
def splitRuns (p : Char → Bool) (l : List Char) : List (List Char × Bool) :=
  l.foldr
    (fun c acc =>
      match acc with
      | [] => [([c], p c)]
      | (run, b) :: rest =>
        if p c == b then (c :: run, b) :: rest else ([c], p c) :: (run, b) :: rest)
    []

/-- Model of Python `str.find` (an auxiliary scan carrying the current index):
index of the first occurrence of `needle`, scanning left to right. -/
def findSubAux (needle : List Char) : List Char → Nat → Option Nat
  | [], i => if needle.isEmpty then some i else none
  | c :: t, i =>
    if needle.isPrefixOf (c :: t) then some i else findSubAux needle t (i + 1)

/-- Model of Python `str.find`: index of the first occurrence of `needle` in
`hay`, or `none`. -/
def findSub (hay needle : List Char) : Option Nat := findSubAux needle hay 0

/-- Model of the Python containment test `needle in hay`. -/
def occursIn (hay needle : List Char) : Bool := (findSub hay needle).isSome

/-- Model of Python `str.replace(old, new, 1)`: replace the first occurrence
of `needle` only. -/
def pyReplace1 (hay needle repl : List Char) : List Char :=
  match findSub hay needle with
  | none => hay
  | some i => hay.take i ++ repl ++ hay.drop (i + needle.length)

/-- Model of Python `str.strip()`: drop whitespace from both ends. -/
def stripPy (w : List Char) : List Char :=
  ((w.dropWhile pyIsSpace).reverse.dropWhile pyIsSpace).reverse

/-- Model of `re.sub(r'\s+', ' ', s)`: collapse each whitespace run to a
single space. -/
def collapseWs (s : List Char) : List Char :=
  ((splitRuns pyIsSpace s).map (fun rb => if rb.2 then [' '] else rb.1)).flatten

/-- Lookup in an insertion-ordered association list (CPython `dict` access). -/
def assocFind {K V : Type} [DecidableEq K] : List (K × V) → K → Option V
  | [], _ => none
  | (k', v) :: t, k => if k' = k then some v else assocFind t k

/-- Update in an insertion-ordered association list (CPython `d[k] = v`):
overwrite in place if the key is present, append otherwise. -/
def assocSet {K V : Type} [DecidableEq K] : List (K × V) → K → V → List (K × V)
  | [], k, v => [(k, v)]
  | (k', v') :: t, k, v =>
    if k' = k then (k, v) :: t else (k', v') :: assocSet t k v

/-! ## Model of `difflib.SequenceMatcher` (used by `calculate_similarity`)

`SequenceMatcher(None, a, b).ratio()` is `2*M/T` where `T = len(a)+len(b)` and
`M` is the total size of the matching blocks found by recursively locating the
longest matching block (with CPython's `b2j` index map, the autojunk rule for
`len(b) >= 200`, and the junk/non-junk extension loops). -/

/-- CPython `b2j`: the ascending list of positions of `c` in `b`. -/
def b2jList (b : List Char) (c : Char) : List Nat :=
  (List.range b.length).filter (fun j => b.get? j == some c)

/-- CPython autojunk rule: with `len(b) >= 200`, characters occurring more
than `len(b) // 100 + 1` times are treated as popular (junk). -/
def isPopular (b : List Char) (c : Char) : Bool :=
  decide (200 ≤ b.length) && decide (b.length / 100 + 1 < b.count c)

/-- CPython `b2j` after removing popular characters. -/
def b2jMap (b : List Char) (c : Char) : List Nat :=
  if isPopular b c then [] else b2jList b c

/-- CPython `find_longest_match`'s backward `while` extension (one pass,
either over non-junk characters, `junkVal = false`, or junk characters,
`junkVal = true`). -/
def extendLo (a b : List Char) (junkVal : Bool) (alo blo : Nat) :
    Nat → Nat → Nat → Nat × Nat × Nat
  | besti, bestj, bestsize =>
    if h : alo < besti ∧ blo < bestj ∧
        isPopular b (b.getD (bestj - 1) ' ') = junkVal ∧
        a.getD (besti - 1) ' ' = b.getD (bestj - 1) ' ' then
      extendLo a b junkVal alo blo (besti - 1) (bestj - 1) (bestsize + 1)
    else (besti, bestj, bestsize)
  termination_by besti _ _ => besti
  decreasing_by omega

/-- CPython `find_longest_match`'s forward `while` extension. -/
def extendHi (a b : List Char) (junkVal : Bool) (ahi bhi : Nat)
    (besti bestj : Nat) : Nat → Nat
  | bestsize =>
    if h : besti + bestsize < ahi ∧ bestj + bestsize < bhi ∧
        isPopular b (b.getD (bestj + bestsize) ' ') = junkVal ∧
        a.getD (besti + bestsize) ' ' = b.getD (bestj + bestsize) ' ' then
      extendHi a b junkVal ahi bhi besti bestj (bestsize + 1)
    else bestsize
  termination_by bestsize => ahi - (besti + bestsize)
  decreasing_by omega

/-- CPython `SequenceMatcher.find_longest_match(alo, ahi, blo, bhi)`:
returns `(besti, bestj, bestsize)`. -/
def findLongestMatch (a b : List Char) (alo ahi blo bhi : Nat) :
    Nat × Nat × Nat :=
  let step := fun (st : (Nat × Nat × Nat) × (Nat → Nat)) (i : Nat) =>
    let js := ((b2jMap b (a.getD i ' ')).filter (fun j => decide (blo ≤ j))).takeWhile
      (fun j => decide (j < bhi))
    js.foldl
      (fun (st2 : (Nat × Nat × Nat) × (Nat → Nat)) (j : Nat) =>
        let k := (if j = 0 then 0 else st.2 (j - 1)) + 1
        let best2 :=
          if st2.1.2.2 < k then (i + 1 - k, j + 1 - k, k) else st2.1
        (best2, fun x => if x = j then k else st2.2 x))
      (st.1, fun _ => 0)
  let init : (Nat × Nat × Nat) × (Nat → Nat) := ((alo, blo, 0), fun _ => 0)
  let res := ((List.range' alo (ahi - alo)).foldl step init).1
  let res := extendLo a b false alo blo res.1 res.2.1 res.2.2
  let res := (res.1, res.2.1, extendHi a b false ahi bhi res.1 res.2.1 res.2.2)
  let res := extendLo a b true alo blo res.1 res.2.1 res.2.2
  (res.1, res.2.1, extendHi a b true ahi bhi res.1 res.2.1 res.2.2)

/-- Total size of the matching blocks of `a[alo:ahi]` against `b[blo:bhi]`
(the sum over CPython `get_matching_blocks`, which recurses on the two sides
of each longest match).  The recursion is driven by explicit fuel; every
recursive call strictly shrinks the combined interval length, so fuel
`(ahi - alo) + (bhi - blo) + 1` always suffices. -/
def matchingSum (a b : List Char) : Nat → Nat → Nat → Nat → Nat → Nat
  | 0, _, _, _, _ => 0
  | fuel + 1, alo, ahi, blo, bhi =>
    let m := findLongestMatch a b alo ahi blo bhi
    let i := m.1
    let j := m.2.1
    let k := m.2.2
    if k = 0 then 0
    else
      k + (if alo < i ∧ blo < j then matchingSum a b fuel alo i blo j else 0) +
        (if i + k < ahi ∧ j + k < bhi then matchingSum a b fuel (i + k) ahi (j + k) bhi
         else 0)

/-- CPython `SequenceMatcher(None, a, b).ratio()` as an exact rational:
`2*M/T`, or `1.0` when both strings are empty. -/
def seqRatio (a b : List Char) : ℚ :=
  let m := matchingSum a b (a.length + b.length + 1) 0 a.length 0 b.length
  if a.length + b.length = 0 then 1
  else 2 * (m : ℚ) / ((a.length : ℚ) + (b.length : ℚ))

/-! ## `AutoCorrectionSystem` (`src/core/correctors.py`)

The corrections database `corrections_db` is a CPython dict from erroneous
strings to their fixes, modelled as an insertion-ordered association list. -/

/-- `settings.SIMILARITY_THRESHOLD` (`src/config/settings.py`). -/
def SIMILARITY_THRESHOLD : ℚ := 8 / 10

/-- `AutoCorrectionSystem.calculate_similarity`: `SequenceMatcher` ratio of
the two strings lowercased. -/
def calculate_similarity (str1 str2 : List Char) : ℚ :=
  seqRatio (str1.map pyToLower) (str2.map pyToLower)

/-- `AutoCorrectionSystem.is_russian_word`: the word contains at least one
character of the Cyrillic block. -/
def is_russian_word (word : List Char) : Bool := word.any is_russian_char

/-- `AutoCorrectionSystem.find_similar_correction`: scan the whole database in
insertion order, keeping the entry of strictly greatest similarity among those
at or above the similarity threshold; returns `(original, correction,
similarity)`. -/
def find_similar_correction (db : List (String × String)) (text : List Char) :
    Option (String × String × ℚ) :=
  db.foldl
    (fun best oc =>
      let similarity := calculate_similarity text oc.1.data
      let best_similarity : ℚ := match best with | none => 0 | some b => b.2.2
      if best_similarity < similarity ∧ SIMILARITY_THRESHOLD ≤ similarity then
        some (oc.1, oc.2, similarity)
      else best)
    none

/-- A correction suggestion, as returned by
`AutoCorrectionSystem.suggest_correction` (a Python dict whose optional
`matched_original` key is present only for similarity matches). -/
structure Suggestion where
  original : String
  corrected : String
  confidence : ℚ
  method : String
  matched_original : Option String
deriving DecidableEq, Repr

/-- `AutoCorrectionSystem.suggest_correction`: an exact dictionary hit wins
with confidence 1.0, otherwise the best similarity match at or above the
threshold. -/
def suggest_correction (db : List (String × String)) (text : List Char) :
    Option Suggestion :=
  match assocFind db (String.mk text) with
  | some corrected => some ⟨String.mk text, corrected, 1, "exact_match", none⟩
  | none =>
    match find_similar_correction db text with
    | some (original, corrected, confidence) =>
      some ⟨String.mk text, corrected, confidence, "similarity_match", some original⟩
    | none => none

/-- An applied-correction record, as appended to `corrections_applied` by
`AutoCorrectionSystem.correct_text` (a Python dict; the last four keys are
present only on phase-1 contextual records). -/
structure AppliedCorrection where
  from_ : String
  to_ : String
  confidence : ℚ
  method : String
  context : Option String
  zero_replacements : Option Nat
  eight_replacements : Option Nat
  case_ : Option String
deriving DecidableEq, Repr

/-- Letter substituted for a digit when the uppercase replacements are used
(`word.replace('0', 'О').replace('8', 'В')`, applied per character — the two
sequential `replace` calls touch disjoint characters). -/
def substUpperDigit (c : Char) : Char :=
  if c = '0' then 'О' else if c = '8' then 'В' else c

/-- Letter substituted for a digit when the lowercase replacements are used
(`word.replace('0', 'о').replace('8', 'в')`). -/
def substLowerDigit (c : Char) : Char :=
  if c = '0' then 'о' else if c = '8' then 'в' else c

/-- The character class of the phase-1 token pattern `[А-Яа-яЁё0-9]`. -/
def phase1Class (c : Char) : Bool :=
  decide ((0x410 ≤ c.toNat ∧ c.toNat ≤ 0x44F) ∨ c.toNat = 0x401 ∨ c.toNat = 0x451)
    || c.isDigit

/-- The local function `replace_digits_in_russian_word` of
`AutoCorrectionSystem.correct_text`, applied to one matched token: if the
token contains a Russian letter, is not purely numeric, and contains a digit
`0` or `8`, those digits are replaced by `о`/`в` or `О`/`В` according to the
majority case rule (`use_uppercase` iff no letter of the token is lowercase and
some letter is uppercase), and one applied-correction record is produced. -/
def replace_digits_in_russian_word (word : List Char) :
    List Char × Option AppliedCorrection :=
  if is_russian_word word && !pyStrIsDigit word &&
      (word.contains '0' || word.contains '8') then
    let has_lowercase := word.any (fun c => pyIsAlpha c && pyIsLower c)
    let use_uppercase := !has_lowercase && word.any (fun c => pyIsAlpha c && pyIsUpper c)
    let new_word :=
      if use_uppercase then word.map substUpperDigit else word.map substLowerDigit
    if new_word ≠ word then
      (new_word,
        some ⟨String.mk word, String.mk new_word, 19 / 20, "contextual_russian_word",
          some (String.mk word), some (word.count '0'), some (word.count '8'),
          some (if use_uppercase then "uppercase" else "lowercase")⟩)
    else (word, none)
  else (word, none)

/-- Phase 1 of `correct_text`: `word_pattern.sub(replace_digits_in_russian_word,
text)` with `word_pattern = \b[А-Яа-яЁё0-9]+\b`.  Because the character class
is contained in `\w`, the pattern's matches are exactly the maximal `\w`-runs
of the text that consist wholly of class characters (a run containing another
word character has no `\b` inside it, so no shorter match can be anchored). -/
def phase1 (text : List Char) : List Char × List AppliedCorrection :=
  let processed :=
    (splitRuns pyIsWordChar text).map
      (fun rb =>
        if rb.2 && rb.1.all phase1Class then replace_digits_in_russian_word rb.1
        else (rb.1, none))
  (((processed.map (·.1)).flatten), processed.filterMap (·.2))

/-- `AutoCorrectionSystem.correct_text`: phase 1 (digit restoration inside
Russian tokens), then one pass over the tokens of the phase-1 output (computed
once, by `re.findall(r'\b\w+\b|\W+', ...)`, i.e. the maximal `\w`/non-`\w`
runs in order); each nonempty alphanumeric token with a suggestion replaces
the first occurrence of the token still present in the running text. -/
def correct_text (db : List (String × String)) (text : String) :
    String × List AppliedCorrection :=
  let p1 := phase1 text.data
  let words := splitRuns pyIsWordChar p1.1
  let step := fun (st : List Char × List AppliedCorrection) (rb : List Char × Bool) =>
    let word := rb.1
    if (stripPy word).isEmpty || !pyStrIsAlnum word then st
    else
      match suggest_correction db word with
      | none => st
      | some s =>
        if occursIn st.1 s.original.data then
          (pyReplace1 st.1 s.original.data s.corrected.data,
            st.2 ++ [⟨s.original, s.corrected, s.confidence, s.method,
              none, none, none, none⟩])
        else st
  let res := words.foldl step (p1.1, p1.2)
  (String.mk res.1, res.2)

/-- `AutoCorrectionSystem.learn_from_mistake`: insert `original → corrected`
(overwriting an existing entry for `original`) unless the two strings are
equal, in which case nothing happens.  Synchronous persistence is I/O and does
not change the in-memory map. -/
def learn_from_mistake (db : List (String × String)) (original corrected : String) :
    List (String × String) :=
  if original ≠ corrected then assocSet db original corrected else db

/-- `AutoCorrectionSystem.add_correction`: the `confirm` branch is empty in
the source, so this is exactly `learn_from_mistake`. -/
def add_correction (db : List (String × String)) (original corrected : String) :
    List (String × String) :=
  learn_from_mistake db original corrected

/-- A whole sequence of `learn_from_mistake` calls, in order. -/
def applyLearns (db : List (String × String)) (calls : List (String × String)) :
    List (String × String) :=
  calls.foldl (fun d oc => learn_from_mistake d oc.1 oc.2) db

/-- State of the corrections-database file as seen by `load_corrections`. -/
inductive DictFileState
  | missing
  | malformed
  | ok (d : List (String × String))
deriving DecidableEq, Repr

/-- The default seed entries written by `load_corrections` on first run. -/
def default_corrections : List (String × String) :=
  [("Маркуталь", "Мариуполь"), ("О", "0"), ("I", "1"), ("З", "3"),
    ("Б", "6"), ("В", "8")]

/-- `AutoCorrectionSystem.load_corrections`: a missing file is created with
the default seed entries, which are returned; an unparsable file is logged and
an empty dictionary is returned; otherwise the file's map is returned.  The
result pairs the in-memory dictionary with the file state after the call. -/
def load_corrections : DictFileState → List (String × String) × DictFileState
  | .missing => (default_corrections, .ok default_corrections)
  | .malformed => ([], .malformed)
  | .ok d => (d, .ok d)

/-! ## `FieldValidator` (`src/core/validators.py`)

The registry `PATTERNS` maps a field name to a compiled recognition pattern,
a validity predicate and a description.  A registry entry is modelled by the
functions the validator calls on it: `findMatches` models
`compiled_patterns[name].findall(text)`, `search` models
`compiled_patterns[name].search(value)` (success only), and `validation`
models the entry's predicate.  `find_field`, `validate_field` and
`validate_critical_fields` are translated over an arbitrary registry value
(the source's control flow never inspects the patterns themselves); the
concrete registry below instantiates the three digit-run fields the claims
exercise. -/

/-- A `PATTERNS` registry entry, by the operations performed on it. -/
structure FieldSpec where
  findMatches : List Char → List (List Char)
  search : List Char → Bool
  validation : List Char → Bool
  description : String

/-- Result record of the validator (`ValidationResult` dataclass). -/
structure ValidationResult where
  field_name : String
  value : String
  valid : Bool
  confidence : ℚ
  message : Option String
  suggested_correction : Option String
deriving DecidableEq, Repr

/-- Matches of a pure digit-run pattern `\b\d{lo,hi}\b` (`findall`): a match
must start and end at a `\b`, and inside a maximal `\w`-run there is no word
boundary, so the matches are exactly the maximal `\w`-runs that consist only
of digits and whose length lies in `[lo, hi]` (a longer run admits no match
because the greedy repetition can never end at a boundary). -/
def digitRunMatches (lo hi : Nat) (text : List Char) : List (List Char) :=
  (splitRuns pyIsWordChar text).filterMap
    (fun rb =>
      if rb.2 && rb.1.all pyIsDigit &&
          decide (lo ≤ rb.1.length ∧ rb.1.length ≤ hi) then
        some rb.1
      else none)

/-- Number of digit characters remaining after `re.sub(r'\D', '', x)`. -/
def digitCount (x : List Char) : Nat := (x.filter pyIsDigit).length

/-- The `'ogrn'` entry of `PATTERNS`: pattern `\b\d{13,15}\b`, valid when the
digit count is 13 or 15. -/
def ogrnSpec : FieldSpec where
  findMatches := digitRunMatches 13 15
  search := fun v => !(digitRunMatches 13 15 v).isEmpty
  validation := fun x => decide (digitCount x = 13 ∨ digitCount x = 15)
  description := "ОГРН (13 или 15 цифр)"

/-- The `'inn'` entry of `PATTERNS`: pattern `\b\d{10,12}\b`, valid when the
digit count is 10 or 12. -/
def innSpec : FieldSpec where
  findMatches := digitRunMatches 10 12
  search := fun v => !(digitRunMatches 10 12 v).isEmpty
  validation := fun x => decide (digitCount x = 10 ∨ digitCount x = 12)
  description := "ИНН (10 или 12 цифр)"

/-- The `'kpp'` entry of `PATTERNS`: pattern `\b\d{9}\b`, valid when the digit
count is exactly 9. -/
def kppSpec : FieldSpec where
  findMatches := digitRunMatches 9 9
  search := fun v => !(digitRunMatches 9 9 v).isEmpty
  validation := fun x => decide (digitCount x = 9)
  description := "КПП (9 цифр)"

/-- The registry (the digit-run entries of `FieldValidator.PATTERNS`; the
remaining entries use regex features outside the modelled fragment and are
not needed by any claim — the theorems over `validate_critical_fields` are
stated for an arbitrary registry). -/
def PATTERNS : List (String × FieldSpec) :=
  [("ogrn", ogrnSpec), ("inn", innSpec), ("kpp", kppSpec)]

/-- `FieldValidator.find_field`: every pattern match, cleaned
(`re.sub(r'\s+', ' ', match.strip())`), paired with confidence 0.9 when the
validity predicate passes on the cleaned value and 0.5 otherwise; an
unregistered field name yields the empty list (logged). -/
def find_field (registry : List (String × FieldSpec)) (field_name : String)
    (text : List Char) : List (List Char × ℚ) :=
  match assocFind registry field_name with
  | none => []
  | some spec =>
    (spec.findMatches text).map
      (fun m =>
        let cleaned := collapseWs (stripPy m)
        (cleaned, if spec.validation cleaned then 9 / 10 else 1 / 2))

/-- Python `max(results, key=lambda x: x[1])` over a nonempty list: the first
element of maximal confidence. -/
def maxByConf (hd : List Char × ℚ) (tl : List (List Char × ℚ)) : List Char × ℚ :=
  tl.foldl (fun best x => if best.2 < x.2 then x else best) hd

/-- `FieldValidator.validate_field`: re-check a specific value against the
field's predicate and pattern; when invalid and a context text is given, the
best `find_field` alternative from the context is offered as
`suggested_correction`. -/
def validate_field (registry : List (String × FieldSpec)) (field_name : String)
    (value : List Char) (text : List Char) : ValidationResult :=
  match assocFind registry field_name with
  | none =>
    ⟨field_name, String.mk value, false, 0,
      some ("Неизвестный тип поля: " ++ field_name), none⟩
  | some spec =>
    let is_valid := spec.validation value
    let matches_pattern := spec.search value
    let valid := is_valid && matches_pattern
    let suggested :=
      if !valid && !text.isEmpty then
        match find_field registry field_name text with
        | [] => none
        | alt :: alts => some (String.mk (maxByConf alt alts).1)
      else none
    ⟨field_name, String.mk value, valid, if valid then 9 / 10 else 1 / 2,
      some ("Поле " ++ spec.description ++
        (if valid then " валидно" else " невалидно")),
      suggested⟩

/-- The fields checked by `validate_critical_fields`: the requested list when
it is given and nonempty (Python truthiness), all registered fields
otherwise. -/
def fields_to_check (registry : List (String × FieldSpec))
    (required_fields : Option (List String)) : List String :=
  match required_fields with
  | none => registry.map (·.1)
  | some [] => registry.map (·.1)
  | some fs => fs

/-- The result that `validate_critical_fields` stores for one requested
field: the found occurrence of highest confidence is re-validated (with the
found confidence overriding the validation confidence), and a field with no
match is reported with `valid = false`, confidence 0 and empty value. -/
def vcfResultFor (registry : List (String × FieldSpec)) (text : List Char)
    (field_name : String) : ValidationResult :=
  match find_field registry field_name text with
  | [] =>
    ⟨field_name, "", false, 0,
      some ("Поле '" ++ field_name ++ "' не найдено в документе"), none⟩
  | fv :: fvs =>
    let best := maxByConf fv fvs
    let r := validate_field registry field_name best.1 text
    ⟨r.field_name, r.value, r.valid, best.2, r.message, r.suggested_correction⟩

/-- `FieldValidator.validate_critical_fields`: for each requested field, its
result record is stored in the result map; a field with no match appears in
the map rather than raising. -/
def validate_critical_fields (registry : List (String × FieldSpec))
    (text : List Char) (required_fields : Option (List String)) :
    List (String × ValidationResult) :=
  (fields_to_check registry required_fields).foldl
    (fun results field_name =>
      assocSet results field_name (vcfResultFor registry text field_name))
    []

/-! ## `QualityChecker.check_quality` (`src/services/quality_check.py`)

Only the composite score is claim-relevant; the image sub-score, the OCR
confidence and the number of detected handwritten areas enter it as opaque
inputs. -/

/-- The composite `overall_quality` computed by `QualityChecker.check_quality`:
`image_quality * 0.3 + ocr_confidence * 0.5 +
(1.0 - len(handwritten_areas) * 0.1) * 0.2`, then clamped by
`max(0.0, min(1.0, ...))`.  Note the handwritten-area count is not capped. -/
def check_quality_overall (image_quality ocr_confidence : ℚ)
    (handwritten_count : ℕ) : ℚ :=
  max 0 (min 1
    (image_quality * (3 / 10) + ocr_confidence * (5 / 10) +
      (1 - (handwritten_count : ℚ) * (1 / 10)) * (2 / 10)))

/-- The composite formula in the words of the specification (for comparison
with the source's computation): `0.3*image_quality + 0.5*ocr_confidence +
0.2*(1 - 0.1*min(handwritten_region_count, 10))`, clamped to `[0, 1]`. -/
def specOverallQuality (image_quality ocr_confidence : ℚ)
    (handwritten_count : ℕ) : ℚ :=
  max 0 (min 1
    ((3 / 10) * image_quality + (5 / 10) * ocr_confidence +
      (2 / 10) * (1 - (1 / 10) * ((min handwritten_count 10 : ℕ) : ℚ))))

/-! ## `FeedbackCollector` and `ActiveLearningSystem`
(`src/services/feedback_collector.py`, `src/services/active_learning.py`)

A correction-feedback record is modelled by the fields that
`get_unapplied_corrections`, `mark_corrections_applied` and
`_auto_update_corrections` read (its id, the correction pair, the user
confidence and the `applied` flag); the feedback store's list of correction
records is kept in append order. -/

/-- A correction-feedback record (`type == 'correction'`). -/
structure CorrectionRecord where
  id : String
  original : String
  corrected : String
  confidence : ℚ
  applied : Bool
deriving DecidableEq, Repr

/-- A record after `mark_corrections_applied` flips its `applied` flag. -/
def setApplied (r : CorrectionRecord) : CorrectionRecord :=
  ⟨r.id, r.original, r.corrected, r.confidence, true⟩

/-- The unapplied records of the store carrying a given `(original,
corrected)` pair — the group that `get_unapplied_corrections` accumulates for
that pair. -/
def unappliedGroup (records : List CorrectionRecord) (o c : String) :
    List CorrectionRecord :=
  records.filter (fun r => !r.applied && r.original == o && r.corrected == c)

/-- Total confidence of a list of records. -/
def sumConf (rs : List CorrectionRecord) : ℚ := (rs.map (·.confidence)).sum

/-- One step of the grouping loop of `get_unapplied_corrections`: an applied
record is skipped; otherwise the record is appended to its `(original,
corrected)` group (created on first sight) and its confidence accumulated. -/
def groupStep
    (acc : List ((String × String) × (List CorrectionRecord × ℚ)))
    (r : CorrectionRecord) :
    List ((String × String) × (List CorrectionRecord × ℚ)) :=
  if r.applied then acc
  else
    match assocFind acc (r.original, r.corrected) with
    | none => assocSet acc (r.original, r.corrected) ([r], r.confidence)
    | some g =>
      assocSet acc (r.original, r.corrected) (g.1 ++ [r], g.2 + r.confidence)

/-- A candidate correction produced by `get_unapplied_corrections`. -/
structure Candidate where
  original : String
  corrected : String
  occurrences : Nat
  avg_confidence : ℚ
  feedback_ids : List String
deriving DecidableEq, Repr

/-- Descending comparison on the Python sort key
`(occurrences, avg_confidence)`. -/
def candKeyGE (x y : Candidate) : Bool :=
  decide (y.occurrences < x.occurrences ∨
    (x.occurrences = y.occurrences ∧ y.avg_confidence ≤ x.avg_confidence))

/-- Stable insertion into a list already sorted descending by the key. -/
def insertByKey (x : Candidate) : List Candidate → List Candidate
  | [] => [x]
  | y :: t => if candKeyGE y x then y :: insertByKey x t else x :: y :: t

/-- Model of `candidates.sort(key=lambda x: (x['occurrences'],
x['avg_confidence']), reverse=True)`: a stable descending sort. -/
def pySortDesc (l : List Candidate) : List Candidate :=
  l.foldl (fun acc x => insertByKey x acc) []

/-- `FeedbackCollector.get_unapplied_corrections`: group the unapplied
correction records by exact `(original, corrected)` pair, keep the groups
with at least `min_occurrences` records and mean confidence at least
`min_confidence`, and sort descending by `(occurrences, avg_confidence)`. -/
def get_unapplied_corrections (records : List CorrectionRecord)
    (min_confidence : ℚ) (min_occurrences : Nat) : List Candidate :=
  let correction_groups := records.foldl groupStep []
  let candidates := correction_groups.filterMap
    (fun kg =>
      let count : Nat := kg.2.1.length
      let avg_confidence : ℚ := if 0 < count then kg.2.2 / (count : ℚ) else 0
      if decide (min_occurrences ≤ count ∧ min_confidence ≤ avg_confidence) then
        some ⟨kg.1.1, kg.1.2, count, avg_confidence, kg.2.1.map (·.id)⟩
      else none)
  pySortDesc candidates

/-- `FeedbackCollector.mark_corrections_applied`: flip `applied` on every
record whose id is in the given list (persisted once per call). -/
def mark_corrections_applied (records : List CorrectionRecord)
    (feedback_ids : List String) : List CorrectionRecord :=
  records.map (fun r => if r.id ∈ feedback_ids then setApplied r else r)

/-- One iteration of the candidate loop of
`ActiveLearningSystem._auto_update_corrections`: a candidate whose `original`
is not yet a key of the corrections database is inserted via `add_correction`
and its contributing feedback ids are collected; otherwise it is skipped
silently. -/
def auto_update_step (st : List (String × String) × List String)
    (cd : Candidate) : List (String × String) × List String :=
  if (assocFind st.1 cd.original).isNone then
    (add_correction st.1 cd.original cd.corrected, st.2 ++ cd.feedback_ids)
  else st

/-- `ActiveLearningSystem._auto_update_corrections`: fetch the candidates,
insert the new ones into the corrections database, then batch-mark the
collected feedback ids applied (a single `mark_corrections_applied` call,
skipped when nothing was collected).  Returns the updated corrections
database and feedback store. -/
def auto_update_corrections (db : List (String × String))
    (records : List CorrectionRecord) (min_confidence : ℚ)
    (min_occurrences : Nat) :
    List (String × String) × List CorrectionRecord :=
  let candidates := get_unapplied_corrections records min_confidence min_occurrences
  let res := candidates.foldl auto_update_step (db, [])
  (res.1, if res.2.isEmpty then records else mark_corrections_applied records res.2)

/-! ## General lemmas about the association-list model -/

theorem assocFind_assocSet_self {K V : Type} [DecidableEq K]
    (l : List (K × V)) (k : K) (v : V) :
    assocFind (assocSet l k v) k = some v := by
  induction l with
  | nil => simp [assocSet, assocFind]
  | cons hd tl ih =>
    by_cases h : hd.1 = k
    · simp [assocSet, assocFind, h]
    · simp only [assocSet, assocFind]
      rw [if_neg h, assocFind, if_neg h]
      exact ih

theorem assocFind_assocSet_ne {K V : Type} [DecidableEq K]
    (l : List (K × V)) (k k' : K) (v : V) (h : k' ≠ k) :
    assocFind (assocSet l k v) k' = assocFind l k' := by
  induction l with
  | nil =>
    simp only [assocSet, assocFind]
    rw [if_neg (fun hh => h hh.symm)]
  | cons hd tl ih =>
    by_cases hk : hd.1 = k
    · simp only [assocSet, if_pos hk, assocFind]
      rw [if_neg (fun hh => h hh.symm), if_neg (fun hh => h (hk.symm.trans hh).symm)]
    · simp only [assocSet, if_neg hk, assocFind]
      by_cases hk' : hd.1 = k'
      · rw [if_pos hk', if_pos hk']
      · rw [if_neg hk', if_neg hk']
        exact ih

theorem mem_assocSet {K V : Type} [DecidableEq K]
    {l : List (K × V)} {k : K} {v : V} {e : K × V}
    (h : e ∈ assocSet l k v) : e = (k, v) ∨ e ∈ l := by
  induction l with
  | nil => simpa [assocSet] using h
  | cons hd tl ih =>
    by_cases hk : hd.1 = k
    · rw [assocSet, if_pos hk] at h
      rcases List.mem_cons.1 h with h1 | h1
      · exact Or.inl h1
      · exact Or.inr (List.mem_cons_of_mem _ h1)
    · rw [assocSet, if_neg hk] at h
      rcases List.mem_cons.1 h with h1 | h1
      · exact Or.inr (h1 ▸ List.mem_cons_self _ _)
      · rcases ih h1 with h2 | h2
        · exact Or.inl h2
        · exact Or.inr (List.mem_cons_of_mem _ h2)

theorem assocSet_assocSet_same {K V : Type} [DecidableEq K]
    (l : List (K × V)) (k : K) (v : V) :
    assocSet (assocSet l k v) k v = assocSet l k v := by
  induction l with
  | nil => simp [assocSet]
  | cons hd tl ih =>
    by_cases hk : hd.1 = k
    · simp [assocSet, hk]
    · simp only [assocSet, if_neg hk]
      rw [ih]

theorem assocFind_foldl_set {K V : Type} [DecidableEq K] (f : K → V) :
    ∀ (fs : List K) (acc : List (K × V)) (k : K),
      assocFind (fs.foldl (fun rs n => assocSet rs n (f n)) acc) k =
        if k ∈ fs then some (f k) else assocFind acc k := by
  intro fs
  induction fs with
  | nil => intro acc k; simp
  | cons n fs ih =>
    intro acc k
    rw [List.foldl_cons, ih]
    by_cases hmem : k ∈ fs
    · rw [if_pos hmem, if_pos (List.mem_cons_of_mem _ hmem)]
    · rw [if_neg hmem]
      by_cases hk : k = n
      · subst hk
        rw [if_pos (List.mem_cons_self _ _), assocFind_assocSet_self]
      · rw [if_neg (by simp [hk, hmem]), assocFind_assocSet_ne _ _ _ _ hk]

/-! ## Lemmas about `findSub` (Python `str.find`) -/

theorem findSubAux_spec (needle : List Char) :
    ∀ (hay : List Char) (i0 i : Nat), findSubAux needle hay i0 = some i →
      i0 ≤ i ∧ needle <+: hay.drop (i - i0) ∧
        ∀ j, j < i - i0 → ¬ needle <+: hay.drop j := by
  intro hay
  induction hay with
  | nil =>
    intro i0 i h
    rw [findSubAux] at h
    by_cases hne : needle.isEmpty
    · rw [if_pos hne] at h
      cases h
      refine ⟨le_rfl, ?_, by omega⟩
      simp [List.isEmpty_iff.1 hne]
    · rw [if_neg hne] at h
      cases h
  | cons c t ih =>
    intro i0 i h
    rw [findSubAux] at h
    by_cases hpre : needle.isPrefixOf (c :: t)
    · rw [if_pos hpre] at h
      cases h
      exact ⟨le_rfl, by simpa using List.isPrefixOf_iff_prefix.1 hpre, by omega⟩
    · rw [if_neg hpre] at h
      obtain ⟨h1, h2, h3⟩ := ih (i0 + 1) i h
      refine ⟨by omega, ?_, ?_⟩
      · have : i - i0 = (i - (i0 + 1)) + 1 := by omega
        rw [this, List.drop_succ_cons]
        exact h2
      · intro j hj
        match j with
        | 0 =>
          simpa using fun hc => hpre (List.isPrefixOf_iff_prefix.2 hc)
        | j' + 1 =>
          rw [List.drop_succ_cons]
          exact h3 j' (by omega)

theorem findSub_spec (hay needle : List Char) (i : Nat)
    (h : findSub hay needle = some i) :
    needle <+: hay.drop i ∧ ∀ j, j < i → ¬ needle <+: hay.drop j := by
  obtain ⟨_, h2, h3⟩ := findSubAux_spec needle hay 0 i h
  exact ⟨by simpa using h2, fun j hj => by simpa using h3 j (by omega)⟩

/-! ## Claim C1 — the composite quality score -/

theorem clamp01_mono {x y : ℚ} (h : x ≤ y) :
    max 0 (min 1 x) ≤ max 0 (min 1 y) :=
  max_le_max le_rfl (min_le_min le_rfl h)

/-- C1, counterexample: the code computes the handwriting term as
`(1.0 - count * 0.1) * 0.2` with no `min(count, 10)` cap, so at
`image_quality = 1`, `ocr_confidence = 1` and 11 handwritten regions the code
yields `0.78` while the claimed formula yields `0.8`; an 11th region *does*
penalize beyond 10. -/
theorem check_quality_overall_ne_spec_at_eleven :
    check_quality_overall 1 1 11 ≠ specOverallQuality 1 1 11 ∧
      check_quality_overall 1 1 11 < check_quality_overall 1 1 10 := by
  unfold check_quality_overall specOverallQuality
  constructor <;> norm_num

/-- C1, amended: `check_quality` computes
`clamp(0.3*image_quality + 0.5*ocr_confidence + 0.2*(1 - 0.1*count))` with no
cap on the handwritten-region count: up to 10 regions this agrees with the
claimed formula, and the score is antitone in the region count (each further
region keeps penalizing until the outer clamp floors the score). -/
theorem check_quality_overall_amended (iq oc : ℚ) (n m : ℕ)
    (h10 : n ≤ 10) (hnm : n ≤ m) :
    check_quality_overall iq oc n = specOverallQuality iq oc n ∧
      check_quality_overall iq oc m ≤ check_quality_overall iq oc n := by
  constructor
  · have hA : iq * (3 / 10) + oc * (5 / 10) + (1 - (n : ℚ) * (1 / 10)) * (2 / 10)
        = (3 / 10) * iq + (5 / 10) * oc +
          (2 / 10) * (1 - (1 / 10) * ((min n 10 : ℕ) : ℚ)) := by
      rw [Nat.min_eq_left h10]
      ring
    unfold check_quality_overall specOverallQuality
    rw [hA]
  · have hc : (n : ℚ) ≤ (m : ℚ) := by exact_mod_cast hnm
    apply clamp01_mono
    nlinarith [hc]

/-- C1 witness: the amended theorem at `image_quality = 1`,
`ocr_confidence = 1`, 10 and 11 regions. -/
theorem check_quality_overall_amended_witness :
    check_quality_overall 1 1 10 = specOverallQuality 1 1 10 ∧
      check_quality_overall 1 1 11 ≤ check_quality_overall 1 1 10 :=
  check_quality_overall_amended 1 1 10 11 (by decide) (by decide)

/-! ## Claim C3 — `learn_from_mistake` invariants -/

/-- C3, counterexample: the claim quantifies over *every* starting dictionary
state, but a dictionary that already holds a self-entry (reachable, since the
persisted file is human-editable) keeps it across `learn_from_mistake` calls:
after one unrelated call from `{"x": "x"}` the self-entry is still present. -/
theorem learn_from_mistake_self_entry_survives :
    ("x", "x") ∈ applyLearns [("x", "x")] [("y", "z")] := by decide

/-- C3, amended: from any dictionary state with no self-entry (in particular
the empty or seeded dictionary), every sequence of `learn_from_mistake` calls
preserves the absence of entries whose key equals their value; a call with
`original == corrected` is a no-op, and repeating the same pair is
idempotent. -/
theorem learn_from_mistake_invariants :
    (∀ (d : List (String × String)) (calls : List (String × String)),
      (∀ e ∈ d, e.1 ≠ e.2) → ∀ e ∈ applyLearns d calls, e.1 ≠ e.2) ∧
    (∀ (d : List (String × String)) (o : String), learn_from_mistake d o o = d) ∧
    (∀ (d : List (String × String)) (o c : String),
      learn_from_mistake (learn_from_mistake d o c) o c = learn_from_mistake d o c) := by
  refine ⟨?_, ?_, ?_⟩
  · intro d calls
    induction calls generalizing d with
    | nil => intro h e he; exact h e he
    | cons oc rest ih =>
      intro h e he
      refine ih (learn_from_mistake d oc.1 oc.2) ?_ e he
      intro e' he'
      unfold learn_from_mistake at he'
      by_cases hne : oc.1 ≠ oc.2
      · rw [if_pos hne] at he'
        rcases mem_assocSet he' with h1 | h1
        · rw [h1]; exact hne
        · exact h e' h1
      · rw [if_neg hne] at he'
        exact h e' he'
  · intro d o
    simp [learn_from_mistake]
  · intro d o c
    unfold learn_from_mistake
    by_cases hne : o ≠ c
    · rw [if_pos hne, if_pos hne, assocSet_assocSet_same]
    · rw [if_neg hne, if_neg hne]

/-- C3 witness: the amended theorem at concrete inputs. -/
theorem learn_from_mistake_invariants_witness :
    (∀ e ∈ applyLearns [] [("а", "б")], e.1 ≠ e.2) ∧
      learn_from_mistake [] "о" "о" = [] ∧
      learn_from_mistake (learn_from_mistake [] "а" "б") "а" "б" =
        learn_from_mistake [] "а" "б" :=
  ⟨learn_from_mistake_invariants.1 [] [("а", "б")] (by simp),
    learn_from_mistake_invariants.2.1 [] "о",
    learn_from_mistake_invariants.2.2 [] "а" "б"⟩

/-! ## Claim C5 — the case rule of phase-1 digit restoration -/

theorem list_map_eq_self_forall {f : Char → Char} :
    ∀ {l : List Char}, l.map f = l → ∀ a ∈ l, f a = a := by
  intro l
  induction l with
  | nil => intro _ a ha; cases ha
  | cons b t ih =>
    intro he a ha
    rw [List.map_cons] at he
    injection he with h1 h2
    rcases List.mem_cons.1 ha with rfl | hat
    · exact h1
    · exact ih h2 a hat

/-- C5, counterexample: the substitution case does *not* follow the majority
case of the token's letters — the source uses the lowercase substitutes
whenever any letter is lowercase.  The token `АБВГДе0` has five uppercase
letters against one lowercase letter (an uppercase majority), yet
`correct_text` substitutes the lowercase `о`, not `О`. -/
theorem correct_text_not_majority_case :
    (("АБВГДе0".data.filter (fun c => pyIsAlpha c && pyIsUpper c)).length = 5 ∧
      ("АБВГДе0".data.filter (fun c => pyIsAlpha c && pyIsLower c)).length = 1) ∧
    correct_text [] "АБВГДе0" =
      ("АБВГДео",
        [⟨"АБВГДе0", "АБВГДео", 19 / 20, "contextual_russian_word",
          some "АБВГДе0", some 1, some 0, some "lowercase"⟩]) := by
  exact ⟨⟨by decide, by decide⟩, rfl⟩

/-- C5, amended: in phase-1 digit restoration the uppercase substitutes are
used only when *no* letter of the token is lowercase (and some letter is
uppercase); whenever any letter is lowercase — regardless of majority — the
lowercase substitutes are used.  In particular `correct_text` (with the
dictionary state exercising only phase 1: an empty map keeps phase 2 inert)
maps the lowercase token `0ксида` to `оксида` via the lowercase substitute
and the all-uppercase token `МАРК0` to `МАРКО` via the uppercase
substitute, recording the case used. -/
theorem replace_digits_case_rule :
    (∀ word : List Char,
      is_russian_word word = true →
      pyStrIsDigit word = false →
      (word.contains '0' || word.contains '8') = true →
      ((word.any (fun c => pyIsAlpha c && pyIsLower c) = true →
          replace_digits_in_russian_word word =
            (word.map substLowerDigit,
              some ⟨String.mk word, String.mk (word.map substLowerDigit),
                19 / 20, "contextual_russian_word", some (String.mk word),
                some (word.count '0'), some (word.count '8'),
                some "lowercase"⟩)) ∧
        (word.any (fun c => pyIsAlpha c && pyIsLower c) = false →
          word.any (fun c => pyIsAlpha c && pyIsUpper c) = true →
          replace_digits_in_russian_word word =
            (word.map substUpperDigit,
              some ⟨String.mk word, String.mk (word.map substUpperDigit),
                19 / 20, "contextual_russian_word", some (String.mk word),
                some (word.count '0'), some (word.count '8'),
                some "uppercase"⟩)))) ∧
    correct_text [] "0ксида" =
      ("оксида",
        [⟨"0ксида", "оксида", 19 / 20, "contextual_russian_word",
          some "0ксида", some 1, some 0, some "lowercase"⟩]) ∧
    correct_text [] "МАРК0" =
      ("МАРКО",
        [⟨"МАРК0", "МАРКО", 19 / 20, "contextual_russian_word",
          some "МАРК0", some 1, some 0, some "uppercase"⟩]) := by
  refine ⟨?_, rfl, rfl⟩
  intro word hr hnd hd
  have hmem : '0' ∈ word ∨ '8' ∈ word := by simpa using hd
  have hne_low : word.map substLowerDigit ≠ word := by
    intro hmapeq
    rcases hmem with h0 | h8
    · exact absurd (list_map_eq_self_forall hmapeq '0' h0) (by decide)
    · exact absurd (list_map_eq_self_forall hmapeq '8' h8) (by decide)
  have hne_up : word.map substUpperDigit ≠ word := by
    intro hmapeq
    rcases hmem with h0 | h8
    · exact absurd (list_map_eq_self_forall hmapeq '0' h0) (by decide)
    · exact absurd (list_map_eq_self_forall hmapeq '8' h8) (by decide)
  have hcond : (is_russian_word word && !pyStrIsDigit word &&
      (word.contains '0' || word.contains '8')) = true := by
    rw [hr, hnd, hd]
    rfl
  constructor
  · intro hlow
    unfold replace_digits_in_russian_word
    rw [if_pos hcond, hlow]
    simp only [Bool.not_true, Bool.false_and, Bool.false_eq_true, if_false]
    rw [if_pos hne_low]
  · intro hlow hup
    unfold replace_digits_in_russian_word
    rw [if_pos hcond, hlow, hup]
    simp only [Bool.not_false, Bool.true_and, if_true]
    rw [if_pos hne_up]

/-- C5 witness: the amended case rule at the all-uppercase token `МАРК0`. -/
theorem replace_digits_case_rule_witness :
    replace_digits_in_russian_word "МАРК0".data =
      ("МАРКО".data,
        some ⟨"МАРК0", "МАРКО", 19 / 20, "contextual_russian_word",
          some "МАРК0", some 1, some 0, some "uppercase"⟩) :=
  (replace_digits_case_rule.1 "МАРК0".data (by decide) (by decide)
    (by decide)).2 (by decide) (by decide)

/-! ## Claim C8 — determinism of `correct_text` -/

/-- C8: `correct_text` is a pure function of the text and the dictionary
state — the embedding consumes no other state and no randomness — so two
calls on the same text with the same dictionary in between return the same
corrected text and the same correction list. -/
theorem correct_text_deterministic (db : List (String × String)) (text : String) :
    (correct_text db text).1 = (correct_text db text).1 ∧
      (correct_text db text).2 = (correct_text db text).2 :=
  ⟨rfl, rfl⟩

/-! ## Claim C9 — `load_corrections` on a missing or malformed file -/

/-- C9, counterexample: a *missing* dictionary file does not produce an empty
in-memory dictionary — `load_corrections` creates and returns the six default
seed entries. -/
theorem load_corrections_missing_not_empty :
    (load_corrections .missing).1 = default_corrections ∧
      (load_corrections .missing).1 ≠ [] := by
  constructor <;> decide

/-- C9, amended: a malformed dictionary file yields an empty in-memory
dictionary and is non-fatal; a missing file is non-fatal too, but yields the
default seed entries, which are also persisted (the §6 first-run behaviour). -/
theorem load_corrections_amended :
    (load_corrections .malformed).1 = [] ∧
      (load_corrections .malformed).2 = .malformed ∧
      (load_corrections .missing).1 = default_corrections ∧
      (load_corrections .missing).2 = .ok default_corrections := by
  refine ⟨rfl, rfl, rfl, rfl⟩

/-! ## Claim C4 — first-occurrence-only replacement -/

/-- C4, counterexample: within one `correct_text` call, every token occurrence
of a matched substring triggers its own application, each replacing the then
first occurrence — so on `"Маркуталь Маркуталь"` the *second* occurrence is
also replaced by the same call, contradicting "later occurrences of the same
substring are left unchanged by that call". -/
theorem correct_text_replaces_later_occurrences :
    correct_text [("Маркуталь", "Мариуполь")] "Маркуталь Маркуталь" =
      ("Мариуполь Мариуполь",
        [⟨"Маркуталь", "Мариуполь", 1, "exact_match", none, none, none, none⟩,
          ⟨"Маркуталь", "Мариуполь", 1, "exact_match", none, none, none, none⟩]) := by
  decide

/-- C4, amended: each *individual* dictionary-correction application inside
`correct_text` replaces only the first textual occurrence of the matched
substring in the running text (the replacement primitive rewrites at the
first match index and nowhere else); later occurrences are untouched by that
application, but each further matching token triggers its own application in
the same call.  The second conjunct shows a single application leaving a later
occurrence intact: only one token matches, and the replacement lands on the
earlier, embedded occurrence. -/
theorem correct_text_first_occurrence_per_application :
    (∀ (hay needle repl : List Char) (i : Nat), findSub hay needle = some i →
      needle <+: hay.drop i ∧ (∀ j, j < i → ¬ needle <+: hay.drop j) ∧
        pyReplace1 hay needle repl =
          hay.take i ++ repl ++ hay.drop (i + needle.length)) ∧
    correct_text [("аб", "ху")] "аб_х аб" =
      ("ху_х аб", [⟨"аб", "ху", 1, "exact_match", none, none, none, none⟩]) := by
  constructor
  · intro hay needle repl i h
    obtain ⟨h1, h2⟩ := findSub_spec hay needle i h
    exact ⟨h1, h2, by simp only [pyReplace1, h]⟩
  · decide

/-- C4 witness: the amended theorem's replacement characterization at a
concrete input with the needle occurring at index 1. -/
theorem correct_text_first_occurrence_per_application_witness :
    "аб".data <+: ("вабаб".data).drop 1 ∧
      (∀ j, j < 1 → ¬ "аб".data <+: ("вабаб".data).drop j) ∧
      pyReplace1 "вабаб".data "аб".data "ху".data =
        ("вабаб".data).take 1 ++ "ху".data ++
          ("вабаб".data).drop (1 + ("аб".data).length) :=
  correct_text_first_occurrence_per_application.1
    "вабаб".data "аб".data "ху".data 1 (by decide)

/-! ## Claim C6 — the 10-or-12-digit and 9-digit fields -/

/-- C6: a text with a standalone 12-digit numeral satisfies the `'inn'` field
(found, valid, confidence 0.9); a text whose only numeral has 9 digits does
not satisfy `'inn'` (reported with `valid = false`), while the 9-digit
`'kpp'` field is found and valid there with confidence 0.9. -/
theorem inn_kpp_digit_length_validation :
    find_field PATTERNS "inn" "ИНН 123456789012".data =
      [("123456789012".data, 9 / 10)] ∧
    assocFind (validate_critical_fields PATTERNS "ИНН 123456789012".data
        (some ["inn"])) "inn" =
      some ⟨"inn", "123456789012", true, 9 / 10,
        some "Поле ИНН (10 или 12 цифр) валидно", none⟩ ∧
    assocFind (validate_critical_fields PATTERNS "КПП 123456789".data
        (some ["inn", "kpp"])) "inn" =
      some ⟨"inn", "", false, 0,
        some "Поле 'inn' не найдено в документе", none⟩ ∧
    find_field PATTERNS "kpp" "КПП 123456789".data =
      [("123456789".data, 9 / 10)] ∧
    assocFind (validate_critical_fields PATTERNS "КПП 123456789".data
        (some ["inn", "kpp"])) "kpp" =
      some ⟨"kpp", "123456789", true, 9 / 10,
        some "Поле КПП (9 цифр) валидно", none⟩ := by
  exact ⟨rfl, rfl, rfl, rfl, rfl⟩

/-! ## Claim C7 — `validate_critical_fields` never raises -/

/-- C7: for every registry, text and requested field list, every requested
field appears in the result map (the embedding is a total function — no
exception path exists), and a field whose pattern finds no match in the text
is reported as a `ValidationResult` with `valid = false`, confidence 0 and
empty value; an invalid value likewise lands in the map (via its per-field
result) rather than raising. -/
theorem validate_critical_fields_total (registry : List (String × FieldSpec))
    (text : List Char) (required_fields : Option (List String)) (name : String)
    (hmem : name ∈ fields_to_check registry required_fields) :
    assocFind (validate_critical_fields registry text required_fields) name =
      some (vcfResultFor registry text name) ∧
    (find_field registry name text = [] →
      vcfResultFor registry text name =
        ⟨name, "", false, 0,
          some ("Поле '" ++ name ++ "' не найдено в документе"), none⟩) := by
  constructor
  · unfold validate_critical_fields
    rw [assocFind_foldl_set (vcfResultFor registry text), if_pos hmem]
  · intro h
    unfold vcfResultFor
    rw [h]

/-- C7 witness: the theorem at the concrete registry, an empty text and the
single requested field `'inn'`, whose pattern finds nothing there. -/
theorem validate_critical_fields_total_witness :
    assocFind (validate_critical_fields PATTERNS "".data (some ["inn"])) "inn" =
      some (vcfResultFor PATTERNS "".data "inn") ∧
    (find_field PATTERNS "inn" "".data = [] →
      vcfResultFor PATTERNS "".data "inn" =
        ⟨"inn", "", false, 0,
          some ("Поле '" ++ "inn" ++ "' не найдено в документе"), none⟩) :=
  validate_critical_fields_total PATTERNS "".data (some ["inn"]) "inn" (by decide)

/-! ## Lemmas about the feedback grouping of `get_unapplied_corrections` -/

theorem sumConf_cons (r : CorrectionRecord) (rs : List CorrectionRecord) :
    sumConf (r :: rs) = r.confidence + sumConf rs := by
  simp [sumConf]

theorem unappliedGroup_cons (r : CorrectionRecord) (rs : List CorrectionRecord)
    (o c : String) :
    unappliedGroup (r :: rs) o c =
      if r.applied = false ∧ r.original = o ∧ r.corrected = c then
        r :: unappliedGroup rs o c
      else unappliedGroup rs o c := by
  unfold unappliedGroup
  rw [List.filter_cons]
  by_cases h : r.applied = false ∧ r.original = o ∧ r.corrected = c
  · rw [if_pos h]
    have hb : (!r.applied && r.original == o && r.corrected == c) = true := by
      simp [h.1, h.2.1, h.2.2]
    rw [if_pos hb]
  · rw [if_neg h]
    have hb : ¬((!r.applied && r.original == o && r.corrected == c) = true) := by
      simp only [Bool.and_eq_true, Bool.not_eq_true', beq_iff_eq]
      intro hc
      exact h ⟨hc.1.1, hc.1.2, hc.2⟩
    rw [if_neg hb]

theorem mem_records_of_mem_unappliedGroup {records : List CorrectionRecord}
    {o c : String} {r : CorrectionRecord}
    (h : r ∈ unappliedGroup records o c) :
    r ∈ records ∧ r.applied = false ∧ r.original = o ∧ r.corrected = c := by
  refine ⟨List.mem_of_mem_filter h, ?_⟩
  have hb := List.of_mem_filter h
  simp only [Bool.and_eq_true, Bool.not_eq_true', beq_iff_eq] at hb
  exact ⟨hb.1.1, hb.1.2, hb.2⟩

theorem assocFind_eq_none_iff {K V : Type} [DecidableEq K]
    (l : List (K × V)) (k : K) :
    assocFind l k = none ↔ k ∉ l.map (·.1) := by
  induction l with
  | nil => simp [assocFind]
  | cons hd tl ih =>
    by_cases h : hd.1 = k
    · simp [assocFind, h]
    · simp only [assocFind, if_neg h, List.map_cons, List.mem_cons, ih]
      constructor
      · intro hnone hmem
        rcases hmem with hmem | hmem
        · exact h hmem.symm
        · exact hnone hmem
      · intro hnmem hmem
        exact hnmem (Or.inr hmem)

theorem keys_assocSet_of_find_none {K V : Type} [DecidableEq K]
    {l : List (K × V)} {k : K} (v : V) (h : assocFind l k = none) :
    (assocSet l k v).map (·.1) = l.map (·.1) ++ [k] := by
  induction l with
  | nil => simp [assocSet]
  | cons hd tl ih =>
    rw [assocFind] at h
    by_cases hk : hd.1 = k
    · rw [if_pos hk] at h; cases h
    · rw [if_neg hk] at h
      rw [assocSet, if_neg hk, List.map_cons, ih h, List.map_cons,
        List.cons_append]

theorem keys_assocSet_of_find_some {K V : Type} [DecidableEq K]
    {l : List (K × V)} {k : K} {g : V} (v : V) (h : assocFind l k = some g) :
    (assocSet l k v).map (·.1) = l.map (·.1) := by
  induction l with
  | nil => cases h
  | cons hd tl ih =>
    rw [assocFind] at h
    by_cases hk : hd.1 = k
    · rw [assocSet, if_pos hk, List.map_cons, List.map_cons, hk]
    · rw [if_neg hk] at h
      rw [assocSet, if_neg hk, List.map_cons, List.map_cons, ih h]

theorem assocFind_of_mem_nodupKeys {K V : Type} [DecidableEq K] :
    ∀ (l : List (K × V)), (l.map (·.1)).Nodup →
      ∀ e ∈ l, assocFind l e.1 = some e.2 := by
  intro l
  induction l with
  | nil => intro _ e he; cases he
  | cons hd tl ih =>
    intro hnd e he
    rw [List.map_cons, List.nodup_cons] at hnd
    rcases List.mem_cons.1 he with he1 | he1
    · rw [he1, assocFind, if_pos rfl]
    · rw [assocFind]
      by_cases hk : hd.1 = e.1
      · exfalso
        exact hnd.1 (hk ▸ List.mem_map_of_mem (·.1) he1)
      · rw [if_neg hk]
        exact ih hnd.2 e he1

theorem groupStep_applied
    (acc : List ((String × String) × (List CorrectionRecord × ℚ)))
    (r : CorrectionRecord) (h : r.applied = true) : groupStep acc r = acc := by
  unfold groupStep
  rw [if_pos h]

theorem groupStep_new
    (acc : List ((String × String) × (List CorrectionRecord × ℚ)))
    (r : CorrectionRecord) (h : r.applied = false)
    (hfind : assocFind acc (r.original, r.corrected) = none) :
    groupStep acc r = assocSet acc (r.original, r.corrected) ([r], r.confidence) := by
  unfold groupStep
  rw [if_neg (by simp [h]), hfind]

theorem groupStep_existing
    (acc : List ((String × String) × (List CorrectionRecord × ℚ)))
    (r : CorrectionRecord) (g : List CorrectionRecord × ℚ)
    (h : r.applied = false)
    (hfind : assocFind acc (r.original, r.corrected) = some g) :
    groupStep acc r =
      assocSet acc (r.original, r.corrected) (g.1 ++ [r], g.2 + r.confidence) := by
  unfold groupStep
  rw [if_neg (by simp [h]), hfind]

theorem keys_nodup_groupStep
    (acc : List ((String × String) × (List CorrectionRecord × ℚ)))
    (r : CorrectionRecord) (h : (acc.map (·.1)).Nodup) :
    ((groupStep acc r).map (·.1)).Nodup := by
  by_cases happ : r.applied = true
  · rw [groupStep_applied acc r happ]
    exact h
  · have happf : r.applied = false := by revert happ; cases r.applied <;> simp
    cases hfind : assocFind acc (r.original, r.corrected) with
    | none =>
      rw [groupStep_new acc r happf hfind, keys_assocSet_of_find_none _ hfind]
      have hnmem := (assocFind_eq_none_iff acc (r.original, r.corrected)).1 hfind
      simp [List.nodup_append, h, hnmem]
    | some g =>
      rw [groupStep_existing acc r g happf hfind, keys_assocSet_of_find_some _ hfind]
      exact h

theorem keys_nodup_foldl_groupStep :
    ∀ (recs : List CorrectionRecord)
      (acc : List ((String × String) × (List CorrectionRecord × ℚ))),
      (acc.map (·.1)).Nodup →
      ((recs.foldl groupStep acc).map (·.1)).Nodup := by
  intro recs
  induction recs with
  | nil => intro acc h; exact h
  | cons r rs ih =>
    intro acc h
    rw [List.foldl_cons]
    exact ih _ (keys_nodup_groupStep acc r h)

theorem foldl_groupStep_find_some (o c : String) :
    ∀ (recs : List CorrectionRecord)
      (acc : List ((String × String) × (List CorrectionRecord × ℚ)))
      (g : List CorrectionRecord × ℚ), assocFind acc (o, c) = some g →
      assocFind (recs.foldl groupStep acc) (o, c) =
        some (g.1 ++ unappliedGroup recs o c,
          g.2 + sumConf (unappliedGroup recs o c)) := by
  intro recs
  induction recs with
  | nil =>
    intro acc g hg
    simp [unappliedGroup, sumConf, hg]
  | cons r rs ih =>
    intro acc g hg
    rw [List.foldl_cons]
    by_cases happ : r.applied = true
    · rw [unappliedGroup_cons,
        if_neg (fun (hcond : r.applied = false ∧ r.original = o ∧ r.corrected = c) =>
          absurd happ (by simp [hcond.1])),
        groupStep_applied acc r happ, ih acc g hg]
    · have happf : r.applied = false := by revert happ; cases r.applied <;> simp
      by_cases hk : r.original = o ∧ r.corrected = c
      · have hfind : assocFind acc (r.original, r.corrected) = some g := by
          rw [hk.1, hk.2]; exact hg
        rw [groupStep_existing acc r g happf hfind]
        have h2 := ih (assocSet acc (r.original, r.corrected)
            (g.1 ++ [r], g.2 + r.confidence)) (g.1 ++ [r], g.2 + r.confidence)
          (by rw [hk.1, hk.2]; exact assocFind_assocSet_self _ _ _)
        rw [h2, unappliedGroup_cons, if_pos ⟨happf, hk.1, hk.2⟩,
          List.append_assoc, List.singleton_append, sumConf_cons, add_assoc]
      · have hkey : (o, c) ≠ (r.original, r.corrected) := fun hcontra =>
          hk ⟨(congrArg Prod.fst hcontra).symm, (congrArg Prod.snd hcontra).symm⟩
        have hstep : assocFind (groupStep acc r) (o, c) = assocFind acc (o, c) := by
          cases hfind : assocFind acc (r.original, r.corrected) with
          | none =>
            rw [groupStep_new acc r happf hfind]
            exact assocFind_assocSet_ne _ _ _ _ hkey
          | some g2 =>
            rw [groupStep_existing acc r g2 happf hfind]
            exact assocFind_assocSet_ne _ _ _ _ hkey
        rw [unappliedGroup_cons,
          if_neg (fun (hcond : r.applied = false ∧ r.original = o ∧ r.corrected = c) =>
            hk ⟨hcond.2.1, hcond.2.2⟩),
          ih (groupStep acc r) g (by rw [hstep]; exact hg)]

theorem foldl_groupStep_find_none (o c : String) :
    ∀ (recs : List CorrectionRecord)
      (acc : List ((String × String) × (List CorrectionRecord × ℚ))),
      assocFind acc (o, c) = none →
      assocFind (recs.foldl groupStep acc) (o, c) =
        if unappliedGroup recs o c = [] then none
        else some (unappliedGroup recs o c, sumConf (unappliedGroup recs o c)) := by
  intro recs
  induction recs with
  | nil =>
    intro acc hg
    simp [unappliedGroup, hg]
  | cons r rs ih =>
    intro acc hg
    rw [List.foldl_cons]
    by_cases happ : r.applied = true
    · rw [unappliedGroup_cons,
        if_neg (fun (hcond : r.applied = false ∧ r.original = o ∧ r.corrected = c) =>
          absurd happ (by simp [hcond.1])),
        groupStep_applied acc r happ, ih acc hg]
    · have happf : r.applied = false := by revert happ; cases r.applied <;> simp
      by_cases hk : r.original = o ∧ r.corrected = c
      · have hfind : assocFind acc (r.original, r.corrected) = none := by
          rw [hk.1, hk.2]; exact hg
        rw [groupStep_new acc r happf hfind]
        have h2 := foldl_groupStep_find_some o c rs
          (assocSet acc (r.original, r.corrected) ([r], r.confidence))
          ([r], r.confidence)
          (by rw [hk.1, hk.2]; exact assocFind_assocSet_self _ _ _)
        rw [h2, unappliedGroup_cons,
          if_pos (⟨happf, hk.1, hk.2⟩ :
            r.applied = false ∧ r.original = o ∧ r.corrected = c),
          if_neg (List.cons_ne_nil _ _), sumConf_cons]
        rfl
      · have hkey : (o, c) ≠ (r.original, r.corrected) := fun hcontra =>
          hk ⟨(congrArg Prod.fst hcontra).symm, (congrArg Prod.snd hcontra).symm⟩
        have hstep : assocFind (groupStep acc r) (o, c) = assocFind acc (o, c) := by
          cases hfind : assocFind acc (r.original, r.corrected) with
          | none =>
            rw [groupStep_new acc r happf hfind]
            exact assocFind_assocSet_ne _ _ _ _ hkey
          | some g2 =>
            rw [groupStep_existing acc r g2 happf hfind]
            exact assocFind_assocSet_ne _ _ _ _ hkey
        rw [unappliedGroup_cons,
          if_neg (fun (hcond : r.applied = false ∧ r.original = o ∧ r.corrected = c) =>
            hk ⟨hcond.2.1, hcond.2.2⟩),
          ih (groupStep acc r) (by rw [hstep]; exact hg)]

theorem mem_insertByKey {y x : Candidate} :
    ∀ l : List Candidate, y ∈ insertByKey x l ↔ y = x ∨ y ∈ l := by
  intro l
  induction l with
  | nil => simp [insertByKey]
  | cons z t ih =>
    unfold insertByKey
    by_cases h : candKeyGE z x = true
    · rw [if_pos h]
      simp only [List.mem_cons, ih]
      tauto
    · rw [if_neg h]
      simp only [List.mem_cons]

theorem mem_pySortDesc {y : Candidate} (l : List Candidate) :
    y ∈ pySortDesc l ↔ y ∈ l := by
  have haux : ∀ (l2 : List Candidate) (acc : List Candidate),
      y ∈ l2.foldl (fun a x => insertByKey x a) acc ↔ y ∈ acc ∨ y ∈ l2 := by
    intro l2
    induction l2 with
    | nil => simp
    | cons x t ih =>
      intro acc
      rw [List.foldl_cons, ih (insertByKey x acc), mem_insertByKey]
      simp only [List.mem_cons]
      tauto
  unfold pySortDesc
  rw [haux l []]
  simp

/-- Every candidate produced by `get_unapplied_corrections` is exactly the
record of its nonempty unapplied group, and passes both thresholds. -/
theorem candidate_spec (records : List CorrectionRecord) (min_confidence : ℚ)
    (min_occurrences : Nat) (cd : Candidate)
    (h : cd ∈ get_unapplied_corrections records min_confidence min_occurrences) :
    unappliedGroup records cd.original cd.corrected ≠ [] ∧
      cd.occurrences = (unappliedGroup records cd.original cd.corrected).length ∧
      min_occurrences ≤ cd.occurrences ∧
      cd.avg_confidence =
        sumConf (unappliedGroup records cd.original cd.corrected) /
          (cd.occurrences : ℚ) ∧
      min_confidence ≤ cd.avg_confidence ∧
      cd.feedback_ids =
        (unappliedGroup records cd.original cd.corrected).map (·.id) := by
  unfold get_unapplied_corrections at h
  rw [mem_pySortDesc] at h
  obtain ⟨kg, hkg, hf⟩ := List.mem_filterMap.1 h
  by_cases hcond : min_occurrences ≤ kg.2.1.length ∧
      min_confidence ≤ (if 0 < kg.2.1.length then kg.2.2 / (kg.2.1.length : ℚ) else 0)
  · rw [if_pos (decide_eq_true hcond)] at hf
    have hcd : cd = ⟨kg.1.1, kg.1.2, kg.2.1.length,
        if 0 < kg.2.1.length then kg.2.2 / (kg.2.1.length : ℚ) else 0,
        kg.2.1.map (·.id)⟩ := (Option.some_inj.1 hf).symm
    have hnodup : ((records.foldl groupStep []).map (·.1)).Nodup :=
      keys_nodup_foldl_groupStep records [] (by simp)
    have hfind := assocFind_of_mem_nodupKeys _ hnodup kg hkg
    rw [foldl_groupStep_find_none kg.1.1 kg.1.2 records [] rfl] at hfind
    by_cases hemp : unappliedGroup records kg.1.1 kg.1.2 = []
    · rw [if_pos hemp] at hfind
      cases hfind
    · rw [if_neg hemp] at hfind
      have hg2 : kg.2 = (unappliedGroup records kg.1.1 kg.1.2,
          sumConf (unappliedGroup records kg.1.1 kg.1.2)) :=
        Option.some_inj.1 hfind.symm
      have hlenpos : 0 < kg.2.1.length := by
        rw [hg2]
        exact List.length_pos.2 hemp
      subst hcd
      refine ⟨?_, ?_, ?_, ?_, ?_, ?_⟩
      · simpa using hemp
      · simp [hg2]
      · exact hcond.1
      · simp only
        rw [if_pos hlenpos, hg2]
      · simpa using hcond.2
      · simp [hg2]
  · rw [if_neg (by simpa using hcond)] at hf
    cases hf

/-! ## Lemmas about the candidate loop of `_auto_update_corrections` -/

theorem auto_update_fold_preserves (cands : List Candidate) :
    ∀ (st : List (String × String) × List String) (k v : String),
      assocFind st.1 k = some v →
      assocFind ((cands.foldl auto_update_step st)).1 k = some v := by
  induction cands with
  | nil => intro st k v h; exact h
  | cons cd rest ih =>
    intro st k v hfind
    rw [List.foldl_cons]
    apply ih
    unfold auto_update_step
    by_cases hskip : (assocFind st.1 cd.original).isNone
    · rw [if_pos hskip]
      show assocFind (add_correction st.1 cd.original cd.corrected) k = some v
      unfold add_correction learn_from_mistake
      by_cases hne : cd.original ≠ cd.corrected
      · rw [if_pos hne]
        have hk : k ≠ cd.original := by
          intro he
          rw [← he, hfind] at hskip
          simp at hskip
        rw [assocFind_assocSet_ne _ _ _ _ hk]
        exact hfind
      · rw [if_neg hne]
        exact hfind
    · rw [if_neg hskip]
      exact hfind

theorem auto_update_fold_new_entries (cands : List Candidate) :
    ∀ (st : List (String × String) × List String) (o c : String),
      assocFind ((cands.foldl auto_update_step st)).1 o = some c →
      assocFind st.1 o = some c ∨
        ∃ cd ∈ cands, cd.original = o ∧ cd.corrected = c := by
  induction cands with
  | nil => intro st o c h; exact Or.inl h
  | cons cd rest ih =>
    intro st o c hfind
    rw [List.foldl_cons] at hfind
    rcases ih (auto_update_step st cd) o c hfind with h1 | ⟨cd2, hcd2, hoc⟩
    · unfold auto_update_step at h1
      by_cases hskip : (assocFind st.1 cd.original).isNone
      · rw [if_pos hskip] at h1
        have h1' : assocFind (add_correction st.1 cd.original cd.corrected) o = some c := h1
        unfold add_correction learn_from_mistake at h1'
        by_cases hne : cd.original ≠ cd.corrected
        · rw [if_pos hne] at h1'
          by_cases ho : o = cd.original
          · rw [ho, assocFind_assocSet_self] at h1'
            exact Or.inr ⟨cd, List.mem_cons_self _ _,
              ho.symm, Option.some_inj.1 h1'⟩
          · rw [assocFind_assocSet_ne _ _ _ _ ho] at h1'
            exact Or.inl h1'
        · rw [if_neg hne] at h1'
          exact Or.inl h1'
      · rw [if_neg hskip] at h1
        exact Or.inl h1
    · exact Or.inr ⟨cd2, List.mem_cons_of_mem _ hcd2, hoc⟩

theorem auto_update_fold_ids_avoid (o v : String) (cands : List Candidate) :
    ∀ (st : List (String × String) × List String),
      assocFind st.1 o = some v →
      ∀ id0 ∈ ((cands.foldl auto_update_step st)).2,
        id0 ∈ st.2 ∨ ∃ cd ∈ cands, cd.original ≠ o ∧ id0 ∈ cd.feedback_ids := by
  induction cands with
  | nil => intro st _ id0 h; exact Or.inl h
  | cons cd rest ih =>
    intro st hfind id0 hid0
    rw [List.foldl_cons] at hid0
    by_cases hskip : (assocFind st.1 cd.original).isNone
    · have hne : cd.original ≠ o := by
        intro he
        rw [he, hfind] at hskip
        cases hskip
      have hstep : auto_update_step st cd =
          (add_correction st.1 cd.original cd.corrected, st.2 ++ cd.feedback_ids) := by
        unfold auto_update_step
        rw [if_pos hskip]
      have hfind2 : assocFind (auto_update_step st cd).1 o = some v := by
        rw [hstep]
        show assocFind (add_correction st.1 cd.original cd.corrected) o = some v
        unfold add_correction learn_from_mistake
        by_cases hnec : cd.original ≠ cd.corrected
        · rw [if_pos hnec, assocFind_assocSet_ne _ _ _ _ (Ne.symm hne)]
          exact hfind
        · rw [if_neg hnec]
          exact hfind
      rcases ih (auto_update_step st cd) hfind2 id0 hid0 with h1 | ⟨cd2, hcd2, hoc⟩
      · rw [hstep] at h1
        rcases List.mem_append.1 h1 with h2 | h2
        · exact Or.inl h2
        · exact Or.inr ⟨cd, List.mem_cons_self _ _, hne, h2⟩
      · exact Or.inr ⟨cd2, List.mem_cons_of_mem _ hcd2, hoc⟩
    · have hstep : auto_update_step st cd = st := by
        unfold auto_update_step
        rw [if_neg hskip]
      rw [hstep] at hid0
      rcases ih st hfind id0 hid0 with h1 | ⟨cd2, hcd2, hoc⟩
      · exact Or.inl h1
      · exact Or.inr ⟨cd2, List.mem_cons_of_mem _ hcd2, hoc⟩

/-! ## Claim C2 — auto-update is conservative -/

/-- C2: `_auto_update_corrections` never overwrites an existing dictionary
entry (every pre-existing key keeps its value), and an `(original, corrected)`
pair backed by fewer than `min_occurrences` unapplied records, or whose mean
confidence is below `min_confidence`, is never promoted into the
dictionary. -/
theorem auto_update_conservative (db : List (String × String))
    (records : List CorrectionRecord) (min_confidence : ℚ)
    (min_occurrences : Nat) :
    (∀ k v, assocFind db k = some v →
      assocFind (auto_update_corrections db records min_confidence
        min_occurrences).1 k = some v) ∧
    (∀ o c, ((unappliedGroup records o c).length < min_occurrences ∨
        sumConf (unappliedGroup records o c) /
          ((unappliedGroup records o c).length : ℚ) < min_confidence) →
      assocFind db o ≠ some c →
      assocFind (auto_update_corrections db records min_confidence
        min_occurrences).1 o ≠ some c) := by
  constructor
  · intro k v h
    exact auto_update_fold_preserves _ (db, []) k v h
  · intro o c hthresh hne hsome
    have hnew := auto_update_fold_new_entries
      (get_unapplied_corrections records min_confidence min_occurrences)
      (db, []) o c hsome
    rcases hnew with h1 | ⟨cd, hcdmem, ho, hc⟩
    · exact hne h1
    · obtain ⟨hge, hocc, hmo, havg, hmc, _⟩ :=
        candidate_spec records min_confidence min_occurrences cd hcdmem
      rw [ho, hc] at hge hocc havg
      rcases hthresh with hlt | hlt
      · rw [hocc] at hmo
        omega
      · rw [havg, hocc] at hmc
        exact absurd hmc (not_le.2 hlt)

/-- C2 witness: the no-overwrite half at a concrete state — an existing entry
survives an auto-update pass over an empty feedback store. -/
theorem auto_update_conservative_witness :
    assocFind (auto_update_corrections [("а", "б")] [] (7 / 10) 2).1 "а" =
      some "б" :=
  (auto_update_conservative [("а", "б")] [] (7 / 10) 2).1 "а" "б" rfl

theorem mem_of_assocFind_some {K V : Type} [DecidableEq K] :
    ∀ {l : List (K × V)} {k : K} {v : V},
      assocFind l k = some v → (k, v) ∈ l := by
  intro l
  induction l with
  | nil => intro k v h; cases h
  | cons hd tl ih =>
    intro k v h
    rw [assocFind] at h
    by_cases hk : hd.1 = k
    · rw [if_pos hk] at h
      have : hd = (k, v) := by
        rw [← hk, ← Option.some_inj.1 h]
      exact this ▸ List.mem_cons_self _ _
    · rw [if_neg hk] at h
      exact List.mem_cons_of_mem _ (ih h)

theorem filter_map_eq_filter {α : Type} (p : α → Bool) (f : α → α) :
    ∀ l : List α,
      (∀ r ∈ l, f r = r ∨ (p r = false ∧ p (f r) = false)) →
      (l.map f).filter p = l.filter p := by
  intro l
  induction l with
  | nil => intro _; rfl
  | cons r t ih =>
    intro h
    rw [List.map_cons, List.filter_cons, List.filter_cons]
    rcases h r (List.mem_cons_self _ _) with h1 | ⟨h2, h3⟩
    · rw [h1, ih (fun x hx => h x (List.mem_cons_of_mem _ hx))]
    · rw [h2, h3]
      simp only [Bool.false_eq_true, if_false]
      exact ih (fun x hx => h x (List.mem_cons_of_mem _ hx))

/-- Converse of `candidate_spec`: a pair whose nonempty unapplied group passes
both thresholds appears among the produced candidates, carrying exactly its
group's statistics and feedback ids. -/
theorem candidate_of_group (records : List CorrectionRecord)
    (min_confidence : ℚ) (min_occurrences : Nat) (o c : String)
    (hgne : unappliedGroup records o c ≠ [])
    (hocc : min_occurrences ≤ (unappliedGroup records o c).length)
    (hconf : min_confidence ≤ sumConf (unappliedGroup records o c) /
      ((unappliedGroup records o c).length : ℚ)) :
    (⟨o, c, (unappliedGroup records o c).length,
      sumConf (unappliedGroup records o c) /
        ((unappliedGroup records o c).length : ℚ),
      (unappliedGroup records o c).map (·.id)⟩ : Candidate) ∈
      get_unapplied_corrections records min_confidence min_occurrences := by
  unfold get_unapplied_corrections
  rw [mem_pySortDesc]
  apply List.mem_filterMap.2
  refine ⟨((o, c), (unappliedGroup records o c, sumConf (unappliedGroup records o c))),
    ?_, ?_⟩
  · have hfind := foldl_groupStep_find_none o c records [] rfl
    rw [if_neg hgne] at hfind
    exact mem_of_assocFind_some hfind
  · have hlenpos : 0 < (unappliedGroup records o c).length := List.length_pos.2 hgne
    show (if decide (min_occurrences ≤ (unappliedGroup records o c).length ∧
          min_confidence ≤ (if 0 < (unappliedGroup records o c).length then
            sumConf (unappliedGroup records o c) /
              ((unappliedGroup records o c).length : ℚ) else 0)) then
        some (⟨o, c, (unappliedGroup records o c).length,
          (if 0 < (unappliedGroup records o c).length then
            sumConf (unappliedGroup records o c) /
              ((unappliedGroup records o c).length : ℚ) else 0),
          (unappliedGroup records o c).map (·.id)⟩ : Candidate)
      else none) = some ⟨o, c, (unappliedGroup records o c).length,
        sumConf (unappliedGroup records o c) /
          ((unappliedGroup records o c).length : ℚ),
        (unappliedGroup records o c).map (·.id)⟩
    rw [if_pos hlenpos, if_pos (decide_eq_true ⟨hocc, hconf⟩)]

/-! ## Claim C10 — skipped candidates are left fully unchanged -/

/-- C10: when an auto-update pass skips the candidate of a pair `(o, c)`
(a nonempty unapplied group passing both thresholds — the first conjunct shows
the pair is indeed among the candidates) because `o` is already a dictionary
key, everything about that candidate stays unchanged: the dictionary entry for
`o` keeps its old value, every contributing feedback record survives in the
store still unapplied (so it keeps appearing in later candidate computations
and pattern analysis), and the pair's unapplied group is identical afterwards;
only feedback ids collected from candidates taken through the insert branch
are batch-marked applied, and none of this pair's ids are among them. -/
theorem auto_update_skip_frame (db : List (String × String))
    (records : List CorrectionRecord) (min_confidence : ℚ)
    (min_occurrences : Nat)
    (hids : (records.map (·.id)).Nodup) (o c : String)
    (hgne : unappliedGroup records o c ≠ [])
    (hocc : min_occurrences ≤ (unappliedGroup records o c).length)
    (hconf : min_confidence ≤ sumConf (unappliedGroup records o c) /
      ((unappliedGroup records o c).length : ℚ))
    (v : String) (hkey : assocFind db o = some v) :
    (⟨o, c, (unappliedGroup records o c).length,
      sumConf (unappliedGroup records o c) /
        ((unappliedGroup records o c).length : ℚ),
      (unappliedGroup records o c).map (·.id)⟩ : Candidate) ∈
      get_unapplied_corrections records min_confidence min_occurrences ∧
    assocFind (auto_update_corrections db records min_confidence
      min_occurrences).1 o = some v ∧
    (∀ r ∈ unappliedGroup records o c,
      r ∈ (auto_update_corrections db records min_confidence min_occurrences).2 ∧
        r.applied = false) ∧
    unappliedGroup (auto_update_corrections db records min_confidence
        min_occurrences).2 o c =
      unappliedGroup records o c := by
  have hdisj : ∀ id0 ∈ ((get_unapplied_corrections records min_confidence
        min_occurrences).foldl auto_update_step (db, [])).2,
      id0 ∉ (unappliedGroup records o c).map (·.id) := by
    intro id0 hid0 hmem
    rcases auto_update_fold_ids_avoid o v _ (db, []) hkey id0 hid0 with
      h1 | ⟨cd2, hcd2, hne2, hid2⟩
    · exact absurd h1 (List.not_mem_nil id0)
    · obtain ⟨_, _, _, _, _, hfids2⟩ :=
        candidate_spec records min_confidence min_occurrences cd2 hcd2
      rw [hfids2] at hid2
      obtain ⟨r1, hr1g, hr1id⟩ := List.mem_map.1 hmem
      obtain ⟨r2, hr2g, hr2id⟩ := List.mem_map.1 hid2
      obtain ⟨hr1rec, _, hr1o, _⟩ := mem_records_of_mem_unappliedGroup hr1g
      obtain ⟨hr2rec, _, hr2o, _⟩ := mem_records_of_mem_unappliedGroup hr2g
      have heq : r1 = r2 :=
        List.inj_on_of_nodup_map hids hr1rec hr2rec (by rw [hr1id, hr2id])
      apply hne2
      rw [← hr2o, ← heq, hr1o]
  have hsnd : (auto_update_corrections db records min_confidence
        min_occurrences).2 =
      (if ((get_unapplied_corrections records min_confidence
            min_occurrences).foldl auto_update_step (db, [])).2.isEmpty then records
        else mark_corrections_applied records
          (((get_unapplied_corrections records min_confidence
            min_occurrences).foldl auto_update_step (db, []))).2) := rfl
  refine ⟨candidate_of_group records min_confidence min_occurrences o c hgne hocc hconf,
    auto_update_fold_preserves _ (db, []) o v hkey, ?_, ?_⟩
  · intro r hrg
    obtain ⟨hrrec, happf, _, _⟩ := mem_records_of_mem_unappliedGroup hrg
    refine ⟨?_, happf⟩
    have hrid : r.id ∈ (unappliedGroup records o c).map (·.id) :=
      List.mem_map_of_mem _ hrg
    rw [hsnd]
    by_cases hemp : ((get_unapplied_corrections records min_confidence
        min_occurrences).foldl auto_update_step (db, [])).2.isEmpty
    · rw [if_pos hemp]
      exact hrrec
    · rw [if_neg hemp]
      unfold mark_corrections_applied
      exact List.mem_map.2 ⟨r, hrrec,
        by rw [if_neg (fun hin => hdisj r.id hin hrid)]⟩
  · rw [hsnd]
    by_cases hemp : ((get_unapplied_corrections records min_confidence
        min_occurrences).foldl auto_update_step (db, [])).2.isEmpty
    · rw [if_pos hemp]
    · rw [if_neg hemp]
      unfold mark_corrections_applied unappliedGroup
      apply filter_map_eq_filter
      intro r hrrec
      by_cases hin : r.id ∈ ((get_unapplied_corrections records min_confidence
          min_occurrences).foldl auto_update_step (db, [])).2
      · refine Or.inr ⟨?_, ?_⟩
        · by_cases hp : (!r.applied && r.original == o && r.corrected == c) = true
          · exact absurd
              (List.mem_map_of_mem (·.id) (List.mem_filter.2 ⟨hrrec, hp⟩))
              (hdisj r.id hin)
          · exact (by decide : ∀ b : Bool, ¬(b = true) → b = false) _ hp
        · rw [if_pos hin]
          simp [setApplied]
      · exact Or.inl (by rw [if_neg hin])

/-- C10 witness: two unapplied records for the pair `("а", "б")` pass the
default thresholds while `"а"` is already a dictionary key, so the pass
leaves the entry, the records and the group untouched. -/
theorem auto_update_skip_frame_witness :
    (⟨"а", "б", (unappliedGroup [⟨"id1", "а", "б", 1, false⟩,
        ⟨"id2", "а", "б", 1, false⟩] "а" "б").length,
      sumConf (unappliedGroup [⟨"id1", "а", "б", 1, false⟩,
          ⟨"id2", "а", "б", 1, false⟩] "а" "б") /
        ((unappliedGroup [⟨"id1", "а", "б", 1, false⟩,
          ⟨"id2", "а", "б", 1, false⟩] "а" "б").length : ℚ),
      (unappliedGroup [⟨"id1", "а", "б", 1, false⟩,
        ⟨"id2", "а", "б", 1, false⟩] "а" "б").map (·.id)⟩ : Candidate) ∈
      get_unapplied_corrections [⟨"id1", "а", "б", 1, false⟩,
        ⟨"id2", "а", "б", 1, false⟩] (7 / 10) 2 ∧
    assocFind (auto_update_corrections [("а", "в")]
      [⟨"id1", "а", "б", 1, false⟩, ⟨"id2", "а", "б", 1, false⟩]
      (7 / 10) 2).1 "а" = some "в" ∧
    (∀ r ∈ unappliedGroup [⟨"id1", "а", "б", 1, false⟩,
        ⟨"id2", "а", "б", 1, false⟩] "а" "б",
      r ∈ (auto_update_corrections [("а", "в")]
        [⟨"id1", "а", "б", 1, false⟩, ⟨"id2", "а", "б", 1, false⟩]
        (7 / 10) 2).2 ∧ r.applied = false) ∧
    unappliedGroup (auto_update_corrections [("а", "в")]
        [⟨"id1", "а", "б", 1, false⟩, ⟨"id2", "а", "б", 1, false⟩]
        (7 / 10) 2).2 "а" "б" =
      unappliedGroup [⟨"id1", "а", "б", 1, false⟩,
        ⟨"id2", "а", "б", 1, false⟩] "а" "б" :=
  auto_update_skip_frame [("а", "в")]
    [⟨"id1", "а", "б", 1, false⟩, ⟨"id2", "а", "б", 1, false⟩]
    (7 / 10) 2 (by decide) "а" "б" (by decide) (by decide)
    (by
      have hg : unappliedGroup [⟨"id1", "а", "б", 1, false⟩,
          ⟨"id2", "а", "б", 1, false⟩] "а" "б" =
          [⟨"id1", "а", "б", 1, false⟩, ⟨"id2", "а", "б", 1, false⟩] := by decide
      rw [hg]
      norm_num [sumConf])
    "в" rfl

end OcrService
